import Mathlib

/-!
Verification development for the traversal / classification core of `lolviz.py`:
the reflective walker (`closure` / `closure_`), the edge extractor (`node_edges`,
`edges`), the topology classifier (`max_edges_in_connected_subgraphs`,
`connected_subgraphs`), and the dict-payload construction of `obj_node`.

The Python object graph is shallowly embedded as a finite heap mapping numeric
identities (the result of Python's `id()`) to object descriptions.  Values that
can sit in a field are `None`, an atom (exactly the values `isatom` recognises:
`int`, `float`, `str` — note Python's `bool` is deliberately *not* among them,
since `type(True) == int` is false), or a reference to a heap identity.  All
other Python objects, including booleans, functions, modules and instances, live
in the heap:

* `Obj.frame`   models a `types.FrameType` stack frame: its `f_locals` (an
  ordered association list), the scope name `inspect.getframeinfo(frame)[2]`,
  and its `f_back` pointer;
* `Obj.dict`    models a `dict` with ordered entries;
* `Obj.plain`   models every other object: its class name, whether it is
  callable-or-module-like (only consulted by `ignoresym`), its `__dict__`
  (when `hasattr(p, "__dict__")`) and its iteration sequence (when
  `hasattr(p, "__iter__")`).  A Python bool is a `plain` object with neither
  capability; a list has only the iteration capability; a user Record has only
  the `__dict__` capability; a class may well have both.

Machine-level details irrelevant to the claims (float payloads are never
inspected by the traversal code) are carried as opaque integer payloads.
-/

namespace Lolviz

inductive Atom where
  | intV (n : Int)
  | floatV (bits : Int)
  | strV (s : String)
deriving DecidableEq, Repr

inductive Val where
  | none
  | atom (a : Atom)
  | ref (i : Nat)
deriving DecidableEq, Repr

inductive Obj where
  | frame (scopename : String) (locals : List (String × Val)) (back : Val)
  | dict (entries : List (String × Val))
  | plain (cls : String) (callableOrMod : Bool)
      (dictFields : Option (List (String × Val))) (iterElems : Option (List Val))
deriving DecidableEq, Repr

/-- A heap: finite association of `id()` values to live objects. -/
abbrev Heap := List (Nat × Obj)

/-- Dereference an identity, as Python dereferences a pointer. -/
def lookupObj (H : Heap) (i : Nat) : Option Obj := List.lookup i H

/-- `isatom(p)`: `type(p) == int or type(p) == float or type(p) == str`. -/
def isatom : Val → Bool
  | Val.atom _ => true
  | _ => false

/-- A value the source absorbs into the owning node's payload instead of
emitting an edge: `None`, or an `isatom` scalar. -/
def absorbed (v : Val) : Prop := v = Val.none ∨ isatom v = true

instance : DecidablePred absorbed := fun v => by unfold absorbed; infer_instance

/-- The `varnames is not None and k not in varnames` filter (negated):
true when the binding named `k` survives the filter. -/
def vnPass (vn : Option (List String)) (k : String) : Bool :=
  match vn with
  | Option.none => true
  | Option.some l => l.contains k

/-- `callable(v) or isinstance(v, types.ModuleType)` for a field value. -/
def isCallableOrMod (H : Heap) (v : Val) : Bool :=
  match v with
  | Val.ref j =>
    match lookupObj H j with
    | Option.some (Obj.plain _ true _ _) => true
    | _ => false
  | _ => false

/-- `ignoresym(sym)`: name starts with `_`, or the value is callable or a module. -/
def ignoresym (H : Heap) (k : String) (v : Val) : Bool :=
  k.startsWith "_" || isCallableOrMod H v

def isFrameObj : Obj → Bool
  | Obj.frame _ _ _ => true
  | _ => false

/-- `isplainobj(p)`: not a frame, not a dict, no `__iter__`, has `__dict__`. -/
def isplainobj : Obj → Bool
  | Obj.plain _ _ (Option.some _) Option.none => true
  | _ => false

/-- An object with both `__dict__` and `__iter__`: classified differently by
`closure_` (which probes `__dict__` first) and `node_edges` (which probes
`__iter__` first). -/
def isDualObj : Obj → Bool
  | Obj.plain _ _ (Option.some _) (Option.some _) => true
  | _ => false

/-- The result of Python's `type(p)`, to the precision the source consults it:
`types.FrameType`, `dict`, or the object's class. -/
inductive PyType where
  | frameT
  | dictT
  | classT (c : String)
deriving DecidableEq, Repr

def pytype : Obj → PyType
  | Obj.frame _ _ _ => PyType.frameT
  | Obj.dict _ => PyType.dictT
  | Obj.plain c _ _ _ => PyType.classT c

/-- `type(q)` for a reference target. -/
def typeOfId (H : Heap) (j : Nat) : Option PyType :=
  (lookupObj H j).map pytype

/-- The ordered list of child values `closure_` recurses into for object `o`,
following the source's branch order exactly:

* frame: the `f_locals` values passing the `varnames` filter and not
  `ignoresym`, then — only when the frame's scope name is not `<module>`
  ("stop at globals") — the `f_back` pointer;
* `dict`: the entry values;
* `hasattr(p, "__dict__")` (tested before `__iter__`): the `__dict__` values;
* `hasattr(p, "__iter__")`: the elements;
* anything else: no children.
-/
def objClosureChildren (H : Heap) (vn : Option (List String)) : Obj → List Val
  | Obj.frame sc locals back =>
    (locals.filter (fun kv => vnPass vn kv.1 && !ignoresym H kv.1 kv.2)).map (·.2)
      ++ (if sc ≠ "<module>" then [back] else [])
  | Obj.dict entries => entries.map (·.2)
  | Obj.plain _ _ (Option.some fs) _ => fs.map (·.2)
  | Obj.plain _ _ Option.none (Option.some es) => es
  | Obj.plain _ _ Option.none Option.none => []

/-- Left-to-right traversal of a list of children, threading the visited set
through the recursive calls exactly as the Python `for` loop threads the
mutable `visited` set. -/
def thread (g : Val → Finset Nat → List Nat × Finset Nat) :
    List Val → Finset Nat → List Nat × Finset Nat
  | [], vis => ([], vis)
  | c :: cs, vis =>
    let r1 := g c vis
    let r2 := thread g cs r1.2
    (r1.1 ++ r2.1, r2.2)

/-- `closure_(p, varnames, visited)`.  The Python function recurses on the
object graph guarded by the visited set; the embedding makes the recursion
structural on an explicit depth budget `fuel` (each Python recursive call is
one `fuel` step).  `closureV_fuel_stable` below shows any
`fuel > |heap identities not yet visited|` yields the same result, which is the
visited-set termination argument of the source.  Returns the produced node
identities (in order) and the final visited set.

Source behaviour mirrored: `None`/atoms produce nothing; an already-visited
identity produces nothing; otherwise the identity is marked visited, appended
to the result unless the object is a frame, and the children are traversed
left to right. -/
def closureV (H : Heap) (vn : Option (List String)) :
    Nat → Val → Finset Nat → List Nat × Finset Nat
  | 0, _, vis => ([], vis)
  | _, Val.none, vis => ([], vis)
  | _, Val.atom _, vis => ([], vis)
  | Nat.succ fuel, Val.ref i, vis =>
    if i ∈ vis then ([], vis)
    else
      let vis1 := insert i vis
      match lookupObj H i with
      | Option.none => ([i], vis1)
      | Option.some o =>
        let r := thread (closureV H vn fuel) (objClosureChildren H vn o) vis1
        ((if isFrameObj o then [] else [i]) ++ r.1, r.2)

/-- The set of identities present in the heap. -/
def heapDom (H : Heap) : Finset Nat := (H.map (·.1)).toFinset

/-- Number of heap identities not yet visited: the quantity that bounds the
remaining recursion depth of `closure_`. -/
def unvis (H : Heap) (vis : Finset Nat) : Nat := (heapDom H \ vis).card

/-- `closure(p, varnames)`: runs `closure_(p, varnames, set())`.  The fuel
`H.length + 1` strictly exceeds `unvis H ∅`, hence is sufficient. -/
def closure (H : Heap) (vn : Option (List String)) (root : Val) : List Nat :=
  (closureV H vn (H.length + 1) root ∅).1

/-- The ordered `(portLabel, childValue)` candidates `node_edges` scans for
object `o`, following the source's branch order exactly:

* frame: `f_locals` entries passing the `varnames` filter and not `ignoresym`
  (port = binding name);
* `dict`: every entry with port `str(i)` where `i` counts *all* entries;
* `hasattr(p, "__iter__")` (tested before `__dict__`): elements with port
  `str(i)`;
* `hasattr(p, "__dict__")`: `__dict__` entries (port = field name);
* anything else: nothing.
-/
def objEdgePorts (H : Heap) (vn : Option (List String)) : Obj → List (String × Val)
  | Obj.frame _ locals _ =>
    locals.filter (fun kv => vnPass vn kv.1 && !ignoresym H kv.1 kv.2)
  | Obj.dict entries => entries.enum.map (fun ikv => (toString ikv.1, ikv.2.2))
  | Obj.plain _ _ _ (Option.some es) => es.enum.map (fun ie => (toString ie.1, ie.2))
  | Obj.plain _ _ (Option.some fs) Option.none => fs
  | Obj.plain _ _ Option.none Option.none => []

/-- `node_edges(p, varnames)`: one edge `(p, port, q)` per candidate whose
value is present (`is not None`) and not an atom — i.e. exactly the reference
values. -/
def nodeEdges (H : Heap) (vn : Option (List String)) (i : Nat) :
    List (Nat × String × Nat) :=
  match lookupObj H i with
  | Option.none => []
  | Option.some o =>
    (objEdgePorts H vn o).filterMap (fun pv =>
      match pv.2 with
      | Val.ref j => Option.some (i, pv.1, j)
      | _ => Option.none)

/-- `edges(reachable, varnames)`: concatenation of `node_edges` over the
reachable list. -/
def edgesOf (H : Heap) (vn : Option (List String)) (reach : List Nat) :
    List (Nat × String × Nat) :=
  reach.flatMap (nodeEdges H vn)

/-- The `items` list built by the `dict` branch of `obj_node` (the node's
payload rows): entries failing the `varnames` filter are skipped *without*
advancing the row counter `i`; each kept entry becomes a row
`(str(i), key, value-if-atom-else-None)`. -/
def objNodeDictItems (vn : Option (List String)) :
    List (String × Val) → Nat → List (String × String × Option Atom)
  | [], _ => []
  | (k, v) :: rest, i =>
    if vnPass vn k then
      (toString i, k,
        match v with
        | Val.atom a => Option.some a
        | _ => Option.none) :: objNodeDictItems vn rest (i + 1)
    else
      objNodeDictItems vn rest i

/-- `max_edges_in_connected_subgraphs(reachable, varnames)`: for each
`isplainobj` node of the closure, count its edges whose target has the same
`type`, and keep the per-class maximum of the positive counts.  The
`defaultdict(int)` is modelled as a total function defaulting to `0`. -/
def maxEdgesInConnectedSubgraphs (H : Heap) (vn : Option (List String))
    (root : Val) : String → Nat :=
  (closure H vn root).foldl
    (fun m i =>
      match lookupObj H i with
      | Option.some (Obj.plain c _ (Option.some _) Option.none) =>
        let cnt :=
          ((nodeEdges H vn i).filter
            (fun e => typeOfId H e.2.2 = Option.some (PyType.classT c))).length
        if cnt > 0 then
          fun c' => if c' = c then max (m c) cnt else m c'
        else m
      | _ => m)
    (fun _ => 0)

/-- State of the `connected_subgraphs` scan: the `type_fieldname_map` (class
name → pinned field name) and the parallel lists `subgraphs` (sets of ids) /
`subgraphobjs` (lists of objects, here ids), kept as a single list of pairs
since the source keeps them index-aligned. -/
structure CSGSt where
  tfmap : String → Option String
  groups : List (Finset Nat × List Nat)

/-- The group-merge step of `connected_subgraphs` for an accepted same-type
edge `(p, _, q)`: every existing group containing `id(p)` or `id(q)` absorbs
both (`g.update({id(p), id(q)})` / `go.extend([p, q])`); if none does, a fresh
group `{id(p), id(q)}` / `[p, q]` is appended.  Note the source updates *every*
matching group and never merges two groups into one. -/
def mergeStep (st : CSGSt) (p q : Nat) : CSGSt :=
  let found := st.groups.any (fun g => decide (p ∈ g.1) || decide (q ∈ g.1))
  if found then
    { st with
      groups := st.groups.map (fun g =>
        if p ∈ g.1 ∨ q ∈ g.1 then (insert p (insert q g.1), g.2 ++ [p, q]) else g) }
  else
    { st with groups := st.groups ++ [({p, q}, [p, q])] }

/-- The body of the `connected_subgraphs` edge loop after the
`type(p) == type(q)` gate has passed, for a node of class `c` and an edge with
field name `e.2.1`:

* if `max_edges_for_type[class] == 1` and the class already has a pinned field
  name, an edge with a *different* field name is skipped (`continue`), one with
  the pinned name merges;
* otherwise the field name is recorded in `type_fieldname_map` and the edge
  merges. -/
def csgAccept (maxE : String → Nat) (c : String) (st : CSGSt)
    (e : Nat × String × Nat) : CSGSt :=
  match (if maxE c = 1 then st.tfmap c else Option.none) with
  | Option.some prev =>
    if e.2.1 ≠ prev then st else mergeStep st e.1 e.2.2
  | Option.none =>
    mergeStep
      { st with tfmap := fun c' => if c' = c then Option.some e.2.1 else st.tfmap c' }
      e.1 e.2.2

/-- One edge of the `connected_subgraphs` scan: the `type(p) == type(q)` gate,
then `csgAccept`. -/
def csgEdgeStep (H : Heap) (maxE : String → Nat) (c : String) (st : CSGSt)
    (e : Nat × String × Nat) : CSGSt :=
  if typeOfId H e.2.2 = Option.some (PyType.classT c) then csgAccept maxE c st e
  else st

/-- One node of the `connected_subgraphs` scan: `isplainobj` nodes contribute
their `node_edges`, all other nodes are skipped. -/
def csgNodeStep (H : Heap) (vn : Option (List String)) (maxE : String → Nat)
    (st : CSGSt) (i : Nat) : CSGSt :=
  match lookupObj H i with
  | Option.some (Obj.plain c _ (Option.some _) Option.none) =>
    (nodeEdges H vn i).foldl (csgEdgeStep H maxE c) st
  | _ => st

def csgInit : CSGSt := ⟨fun _ => Option.none, []⟩

/-- `connected_subgraphs(reachable, varnames)`: computes the per-class maxima,
re-walks the closure, scans every same-type edge of every `isplainobj` node,
and returns the maxima together with the groups.  The source returns each
group as `list(set(go))`; membership-faithfully we return `go.dedup`. -/
def connectedSubgraphs (H : Heap) (vn : Option (List String)) (root : Val) :
    (String → Nat) × List (List Nat) :=
  let maxE := maxEdgesInConnectedSubgraphs H vn root
  let st := (closure H vn root).foldl (csgNodeStep H vn maxE) csgInit
  (maxE, st.groups.map (fun g => g.2.dedup))

/-- The flattened, type-gate-filtered edge scan of `connected_subgraphs`:
the same-type edges of the `isplainobj` nodes of the closure, in scan order,
each tagged with its source node's class. -/
def scanEdges (H : Heap) (vn : Option (List String)) (reach : List Nat) :
    List (String × Nat × String × Nat) :=
  reach.flatMap (fun i =>
    match lookupObj H i with
    | Option.some (Obj.plain c _ (Option.some _) Option.none) =>
      (nodeEdges H vn i).filterMap (fun e =>
        if typeOfId H e.2.2 = Option.some (PyType.classT c) then Option.some (c, e)
        else Option.none)
    | _ => [])

/-- Fold of `csgAccept` over a tagged edge list. -/
def csgScanFold (maxE : String → Nat) (st : CSGSt)
    (es : List (String × Nat × String × Nat)) : CSGSt :=
  es.foldl (fun st ce => csgAccept maxE ce.1 st ce.2) st

/-- No heap object is a stack frame. -/
def NoFrames (H : Heap) : Prop := ∀ p ∈ H, isFrameObj p.2 = false

/-- No heap object exposes both `__dict__` and `__iter__` (the dual-capability
shape on which `closure_` and `node_edges` disagree). -/
def NoDual (H : Heap) : Prop := ∀ p ∈ H, isDualObj p.2 = false

instance (H : Heap) : Decidable (NoFrames H) := by unfold NoFrames; infer_instance

instance (H : Heap) : Decidable (NoDual H) := by unfold NoDual; infer_instance

/-- The children `closure_` recurses into from node `p` (empty for an identity
not in the heap). -/
def closureChildrenOfId (H : Heap) (vn : Option (List String)) (p : Nat) : List Val :=
  match lookupObj H p with
  | Option.some o => objClosureChildren H vn o
  | Option.none => []

/-- The invariant a traversal step maintains: the visited set grows, the
produced identities are duplicate-free, fresh (not previously visited), and
all marked visited. -/
def StepOK (g : Val → Finset Nat → List Nat × Finset Nat) : Prop :=
  ∀ v vis, vis ⊆ (g v vis).2 ∧ (g v vis).1.Nodup ∧
    ∀ i ∈ (g v vis).1, i ∉ vis ∧ i ∈ (g v vis).2

/- ------------------------------------------------------------------ -/
/- Example heaps used by the concrete claims.                          -/
/- ------------------------------------------------------------------ -/

/-- A self-referential record `a.next = a` (claim C6). -/
def selfHeap : Heap :=
  [(0, Obj.plain "A" false (Option.some [("next", Val.ref 0)]) Option.none)]

/-- `b = {x: a, y: a}`: two references to one object (claim C7). -/
def dupHeap : Heap :=
  [(0, Obj.dict [("x", Val.ref 1), ("y", Val.ref 1)]),
   (1, Obj.plain "A" false (Option.some []) Option.none)]

/-- A dual-capability object (both `__dict__` and `__iter__`): its field `f`
references object 1 while its iteration yields object 2 (claims C2, C4). -/
def dualHeap : Heap :=
  [(0, Obj.plain "W" false (Option.some [("f", Val.ref 1)]) (Option.some [Val.ref 2])),
   (1, Obj.plain "A" false (Option.some []) Option.none),
   (2, Obj.plain "B" false (Option.some []) Option.none)]

/-- Two same-class components `{0,1,4}` (0 has out-degree 2, so the class is a
tree candidate) and `{2,3}`, later joined by the edge `3.m = 0`, all reachable
from the list object 9 (claim C1). -/
def olHeap : Heap :=
  [(9, Obj.plain "list" false Option.none (Option.some [Val.ref 0, Val.ref 2])),
   (0, Obj.plain "T" false (Option.some [("n", Val.ref 1), ("o", Val.ref 4)]) Option.none),
   (1, Obj.plain "T" false (Option.some []) Option.none),
   (4, Obj.plain "T" false (Option.some []) Option.none),
   (2, Obj.plain "T" false (Option.some [("n", Val.ref 3)]) Option.none),
   (3, Obj.plain "T" false (Option.some [("m", Val.ref 0)]) Option.none)]

/-- A record with three same-class outgoing edges (claim C3). -/
def fanHeap : Heap :=
  [(0, Obj.plain "T" false
      (Option.some [("a", Val.ref 1), ("b", Val.ref 2), ("c", Val.ref 3)]) Option.none),
   (1, Obj.plain "T" false (Option.some []) Option.none),
   (2, Obj.plain "T" false (Option.some []) Option.none),
   (3, Obj.plain "T" false (Option.some []) Option.none)]

/-- A four-node chain `0 → 1 → 2 → 3` linked by field `next` (claim C8). -/
def chainHeap : Heap :=
  [(0, Obj.plain "N" false (Option.some [("next", Val.ref 1)]) Option.none),
   (1, Obj.plain "N" false (Option.some [("next", Val.ref 2)]) Option.none),
   (2, Obj.plain "N" false (Option.some [("next", Val.ref 3)]) Option.none),
   (3, Obj.plain "N" false (Option.some [("next", Val.none)]) Option.none)]

/-- A record whose field `flag` holds a Python boolean: `type(True)` is `bool`,
so `isatom` rejects it and the boolean lives in the heap as a capabilityless
object (claim C5). -/
def boolHeap : Heap :=
  [(0, Obj.plain "R" false (Option.some [("flag", Val.ref 1)]) Option.none),
   (1, Obj.plain "bool" false Option.none Option.none)]

/-- A chain candidate with a stray differently-named same-class field:
`0.next = 1`, `1.prev = 0` (claim C9 witness). -/
def pinHeap : Heap :=
  [(0, Obj.plain "N" false (Option.some [("next", Val.ref 1)]) Option.none),
   (1, Obj.plain "N" false (Option.some [("prev", Val.ref 0)]) Option.none)]

/-- A record with an atom-valued field `x` and a reference-valued field `n`
(claim C5 witness). -/
def c5Heap : Heap :=
  [(0, Obj.plain "R" false
      (Option.some [("x", Val.atom (Atom.intV 5)), ("n", Val.ref 1)]) Option.none),
   (1, Obj.plain "R" false (Option.some []) Option.none)]

/-- A mapping `{"a": 1, "b": 2}` whose values are all scalars (claim C5
witness: Mapping scalar absorption). -/
def mapAbsHeap : Heap :=
  [(0, Obj.dict [("a", Val.atom (Atom.intV 1)), ("b", Val.atom (Atom.intV 2))])]

/-- A dict with two reference-valued entries (claim C10). -/
def dHeap : Heap :=
  [(5, Obj.dict [("a", Val.ref 6), ("b", Val.ref 7)]),
   (6, Obj.plain "A" false (Option.some []) Option.none),
   (7, Obj.plain "B" false (Option.some []) Option.none)]

/-- A dict with a scalar entry interleaved before a reference entry
(claim C10 witness). -/
def dAtomHeap : Heap :=
  [(5, Obj.dict [("a", Val.atom (Atom.intV 1)), ("b", Val.ref 7)]),
   (7, Obj.plain "B" false (Option.some []) Option.none)]

/- ------------------------------------------------------------------ -/
/- Basic lemmas about the walker.                                      -/
/- ------------------------------------------------------------------ -/

theorem lookupObj_mem {H : Heap} {i : Nat} {o : Obj} (h : lookupObj H i = Option.some o) :
    (i, o) ∈ H := by
  induction H with
  | nil => simp [lookupObj, List.lookup] at h
  | cons p rest ih =>
    rw [lookupObj, List.lookup] at h
    by_cases hip : i = p.1
    · subst hip
      simp at h
      subst h
      exact List.mem_cons_self _ _
    · have : (i == p.1) = false := beq_false_of_ne hip
      rw [this] at h
      exact List.mem_cons_of_mem _ (ih h)

theorem lookupObj_mem_dom {H : Heap} {i : Nat} {o : Obj}
    (h : lookupObj H i = Option.some o) : i ∈ heapDom H := by
  have := lookupObj_mem h
  simp only [heapDom, List.mem_toFinset]
  exact List.mem_map.mpr ⟨(i, o), this, rfl⟩

theorem thread_mono {g : Val → Finset Nat → List Nat × Finset Nat}
    (hg : ∀ v vis, vis ⊆ (g v vis).2) :
    ∀ (cs : List Val) (vis : Finset Nat), vis ⊆ (thread g cs vis).2 := by
  intro cs
  induction cs with
  | nil => intro vis; simp [thread]
  | cons c cs ih =>
    intro vis
    simp only [thread]
    exact (hg c vis).trans (ih _)

theorem closureV_mono (H : Heap) (vn : Option (List String)) :
    ∀ (f : Nat) (v : Val) (vis : Finset Nat), vis ⊆ (closureV H vn f v vis).2 := by
  intro f
  induction f with
  | zero => intro v vis; simp [closureV]
  | succ f ih =>
    intro v vis
    match v with
    | Val.none => simp [closureV]
    | Val.atom a => simp [closureV]
    | Val.ref i =>
      by_cases hi : i ∈ vis
      · simp [closureV, hi]
      · cases hlook : lookupObj H i with
        | none =>
          simp only [closureV, hi, if_false, hlook]
          exact Finset.subset_insert _ _
        | some o =>
          simp only [closureV, hi, if_false, hlook]
          exact (Finset.subset_insert _ _).trans (thread_mono ih _ _)

theorem closureV_marks (H : Heap) (vn : Option (List String))
    {f : Nat} (hf : 1 ≤ f) (j : Nat) (vis : Finset Nat) :
    j ∈ (closureV H vn f (Val.ref j) vis).2 := by
  obtain ⟨a, rfl⟩ : ∃ a, f = a + 1 := ⟨f - 1, by omega⟩
  by_cases hj : j ∈ vis
  · simp only [closureV, hj, if_true]
  · cases hlook : lookupObj H j with
    | none => simp [closureV, hj, hlook]
    | some o =>
      simp only [closureV, hj, if_false, hlook]
      exact thread_mono (closureV_mono H vn a) _ _ (Finset.mem_insert_self _ _)

theorem thread_marks {g : Val → Finset Nat → List Nat × Finset Nat}
    (hmono : ∀ v vis, vis ⊆ (g v vis).2)
    (hmark : ∀ j vis, j ∈ (g (Val.ref j) vis).2) :
    ∀ (cs : List Val) (vis : Finset Nat) (j : Nat),
      Val.ref j ∈ cs → j ∈ (thread g cs vis).2 := by
  intro cs
  induction cs with
  | nil => intro vis j h; simp at h
  | cons c cs ih =>
    intro vis j h
    rcases List.mem_cons.mp h with h | h
    · subst h
      simp only [thread]
      exact thread_mono hmono _ _ (hmark j vis)
    · simp only [thread]
      exact ih _ _ h

theorem thread_ok {g : Val → Finset Nat → List Nat × Finset Nat} (hg : StepOK g) :
    ∀ (cs : List Val) (vis : Finset Nat),
      vis ⊆ (thread g cs vis).2 ∧ (thread g cs vis).1.Nodup ∧
        ∀ i ∈ (thread g cs vis).1, i ∉ vis ∧ i ∈ (thread g cs vis).2 := by
  intro cs
  induction cs with
  | nil => intro vis; simp [thread]
  | cons c cs ih =>
    intro vis
    obtain ⟨hm1, hn1, hi1⟩ := hg c vis
    obtain ⟨hm2, hn2, hi2⟩ := ih (g c vis).2
    simp only [thread]
    refine ⟨hm1.trans hm2, ?_, ?_⟩
    · refine List.Nodup.append hn1 hn2 ?_
      intro x hx1 hx2
      exact (hi2 x hx2).1 (hi1 x hx1).2
    · intro i hi
      rcases List.mem_append.mp hi with h | h
      · exact ⟨(hi1 i h).1, hm2 (hi1 i h).2⟩
      · exact ⟨fun hv => (hi2 i h).1 (hm1 hv), (hi2 i h).2⟩

theorem closureV_ok (H : Heap) (vn : Option (List String)) :
    ∀ f : Nat, StepOK (closureV H vn f) := by
  intro f
  induction f with
  | zero => intro v vis; simp [closureV]
  | succ f ih =>
    intro v vis
    match v with
    | Val.none => simp [closureV]
    | Val.atom a => simp [closureV]
    | Val.ref i =>
      by_cases hi : i ∈ vis
      · simp [closureV, hi]
      · cases hlook : lookupObj H i with
        | none =>
          simp only [closureV, hi, if_false, hlook]
          refine ⟨Finset.subset_insert _ _, List.nodup_singleton _, ?_⟩
          intro j hj
          simp only [List.mem_singleton] at hj
          subst hj
          exact ⟨hi, Finset.mem_insert_self _ _⟩
        | some o =>
          simp only [closureV, hi, if_false, hlook]
          obtain ⟨hm, hn, hmem⟩ := thread_ok ih (objClosureChildren H vn o) (insert i vis)
          have hins : insert i vis ⊆
              (thread (closureV H vn f) (objClosureChildren H vn o) (insert i vis)).2 := hm
          refine ⟨(Finset.subset_insert _ _).trans hins, ?_, ?_⟩
          · cases hfr : isFrameObj o
            · simp only [Bool.false_eq_true, if_false, List.singleton_append]
              exact List.Nodup.cons
                (fun hmemi => (hmem i hmemi).1 (Finset.mem_insert_self _ _)) hn
            · simpa using hn
          · intro j hj
            cases hfr : isFrameObj o
            · rw [hfr] at hj
              simp only [Bool.false_eq_true, if_false, List.singleton_append,
                List.mem_cons] at hj
              rcases hj with hj | hj
              · subst hj
                exact ⟨hi, hins (Finset.mem_insert_self _ _)⟩
              · refine ⟨fun hv => (hmem j hj).1 (Finset.mem_insert_of_mem hv), (hmem j hj).2⟩
            · rw [hfr] at hj
              simp only [if_pos rfl, List.nil_append] at hj
              refine ⟨fun hv => (hmem j hj).1 (Finset.mem_insert_of_mem hv), (hmem j hj).2⟩

/-- With a frame-free heap, every identity in the final visited set was either
already visited or is among the produced node identities. -/
theorem closureV_visited (H : Heap) (vn : Option (List String)) (hnf : NoFrames H) :
    ∀ (f : Nat) (v : Val) (vis : Finset Nat) (j : Nat),
      j ∈ (closureV H vn f v vis).2 → j ∈ vis ∨ j ∈ (closureV H vn f v vis).1 := by
  intro f
  induction f with
  | zero => intro v vis j h; simp [closureV] at h; exact Or.inl h
  | succ f ih =>
    have ihthread : ∀ (cs : List Val) (vis : Finset Nat) (j : Nat),
        j ∈ (thread (closureV H vn f) cs vis).2 →
          j ∈ vis ∨ j ∈ (thread (closureV H vn f) cs vis).1 := by
      intro cs
      induction cs with
      | nil => intro vis j h; simp [thread] at h; exact Or.inl h
      | cons c cs ihc =>
        intro vis j h
        simp only [thread] at h ⊢
        rcases ihc _ _ h with h' | h'
        · rcases ih c vis j h' with h'' | h''
          · exact Or.inl h''
          · exact Or.inr (List.mem_append.mpr (Or.inl h''))
        · exact Or.inr (List.mem_append.mpr (Or.inr h'))
    intro v vis j h
    match v with
    | Val.none => simp [closureV] at h ⊢; exact h
    | Val.atom a => simp [closureV] at h ⊢; exact h
    | Val.ref i =>
      by_cases hi : i ∈ vis
      · simp [closureV, hi] at h ⊢; exact h
      · cases hlook : lookupObj H i with
        | none =>
          simp only [closureV, hi, if_false, hlook] at h ⊢
          rcases Finset.mem_insert.mp h with h' | h'
          · exact Or.inr (by simp [h'])
          · exact Or.inl h'
        | some o =>
          have hfr : isFrameObj o = false := hnf _ (lookupObj_mem hlook)
          simp only [closureV, hi, if_false, hlook, hfr, Bool.false_eq_true,
            if_neg (by simp : ¬False), List.cons_append, List.nil_append] at h ⊢
          rcases ihthread _ _ _ h with h' | h'
          · rcases Finset.mem_insert.mp h' with h'' | h''
            · exact Or.inr (by simp [h''])
            · exact Or.inl h''
          · exact Or.inr (List.mem_cons_of_mem _ h')

theorem unvis_antitone (H : Heap) {vis vis' : Finset Nat} (h : vis ⊆ vis') :
    unvis H vis' ≤ unvis H vis :=
  Finset.card_le_card (Finset.sdiff_subset_sdiff (Finset.Subset.refl _) h)

theorem unvis_insert_lt (H : Heap) {i : Nat} {vis : Finset Nat}
    (hd : i ∈ heapDom H) (hv : i ∉ vis) : unvis H (insert i vis) < unvis H vis := by
  unfold unvis
  rw [Finset.sdiff_insert]
  exact Finset.card_erase_lt_of_mem (Finset.mem_sdiff.mpr ⟨hd, hv⟩)

theorem unvis_le_length (H : Heap) : unvis H ∅ ≤ H.length := by
  unfold unvis heapDom
  calc ((H.map (·.1)).toFinset \ ∅).card = (H.map (·.1)).toFinset.card := by
        rw [Finset.sdiff_empty]
    _ ≤ (H.map (·.1)).length := (H.map (·.1)).toFinset_card_le
    _ = H.length := List.length_map _ _

/-- Termination of the walker, formalised as fuel-stability: as soon as the
depth budget strictly exceeds the number of heap identities not yet visited
(the visited-set bound), the budget no longer affects the result — the
recursion has genuinely bottomed out. -/
theorem closureV_stable (H : Heap) (vn : Option (List String)) :
    ∀ (n f1 f2 : Nat) (v : Val) (vis : Finset Nat), unvis H vis ≤ n →
      n < f1 → n < f2 → closureV H vn f1 v vis = closureV H vn f2 v vis := by
  intro n
  induction n using Nat.strong_induction_on with
  | _ n ih =>
    intro f1 f2 v vis hb h1 h2
    obtain ⟨a, rfl⟩ : ∃ a, f1 = a + 1 := ⟨f1 - 1, by omega⟩
    obtain ⟨b, rfl⟩ : ∃ b, f2 = b + 1 := ⟨f2 - 1, by omega⟩
    match v with
    | Val.none => simp [closureV]
    | Val.atom x => simp [closureV]
    | Val.ref i =>
      by_cases hi : i ∈ vis
      · simp [closureV, hi]
      · cases hlook : lookupObj H i with
        | none => simp [closureV, hi, hlook]
        | some o =>
          have hidom : i ∈ heapDom H := lookupObj_mem_dom hlook
          have hlt : unvis H (insert i vis) < unvis H vis := unvis_insert_lt H hidom hi
          have hn1 : 1 ≤ n := by omega
          have hthread : ∀ (cs : List Val) (vis' : Finset Nat), unvis H vis' ≤ n - 1 →
              thread (closureV H vn a) cs vis' = thread (closureV H vn b) cs vis' := by
            intro cs
            induction cs with
            | nil => intro vis' _; rfl
            | cons c cs ihc =>
              intro vis' hb'
              have hhead : closureV H vn a c vis' = closureV H vn b c vis' :=
                ih (n - 1) (by omega) a b c vis' hb' (by omega) (by omega)
              simp only [thread, hhead]
              rw [ihc _ (le_trans (unvis_antitone H (closureV_mono H vn b c vis')) hb')]
          simp only [closureV, hi, if_false, hlook]
          rw [hthread _ _ (by omega)]

/-- With sufficient fuel, every ref-valued `closure_`-child of every produced
node ends up in the final visited set: the walker really has recursed into
all children of everything it emitted. -/
theorem closureV_closed (H : Heap) (vn : Option (List String)) :
    ∀ (n f : Nat) (v : Val) (vis : Finset Nat), unvis H vis ≤ n → n < f →
      ∀ p ∈ (closureV H vn f v vis).1, ∀ j : Nat,
        Val.ref j ∈ closureChildrenOfId H vn p → j ∈ (closureV H vn f v vis).2 := by
  intro n
  induction n using Nat.strong_induction_on with
  | _ n ih =>
    intro f v vis hb hf p hp j hj
    obtain ⟨a, rfl⟩ : ∃ a, f = a + 1 := ⟨f - 1, by omega⟩
    match v with
    | Val.none => simp [closureV] at hp
    | Val.atom x => simp [closureV] at hp
    | Val.ref i =>
      by_cases hi : i ∈ vis
      · simp [closureV, hi] at hp
      · cases hlook : lookupObj H i with
        | none =>
          simp only [closureV, hi, if_false, hlook, List.mem_singleton] at hp
          subst hp
          rw [closureChildrenOfId, hlook] at hj
          simp at hj
        | some o =>
          have hidom : i ∈ heapDom H := lookupObj_mem_dom hlook
          have hlt : unvis H (insert i vis) < unvis H vis := unvis_insert_lt H hidom hi
          have hn1 : 1 ≤ n := by omega
          have ha1 : 1 ≤ a := by omega
          -- thread-level closedness at fuel `a`, bound `n - 1`
          have hthread : ∀ (cs : List Val) (vis' : Finset Nat), unvis H vis' ≤ n - 1 →
              ∀ p ∈ (thread (closureV H vn a) cs vis').1, ∀ j : Nat,
                Val.ref j ∈ closureChildrenOfId H vn p →
                  j ∈ (thread (closureV H vn a) cs vis').2 := by
            intro cs
            induction cs with
            | nil => intro vis' _ p hp; simp [thread] at hp
            | cons c cs ihc =>
              intro vis' hb' p hp j hj
              simp only [thread] at hp ⊢
              rcases List.mem_append.mp hp with hp' | hp'
              · have := ih (n - 1) (by omega) a c vis' hb' (by omega) p hp' j hj
                exact thread_mono (closureV_mono H vn a) _ _ this
              · exact ihc _ (le_trans
                  (unvis_antitone H (closureV_mono H vn a c vis')) hb') p hp' j hj
          simp only [closureV, hi, if_false, hlook] at hp ⊢
          rcases List.mem_append.mp hp with hp' | hp'
          · -- p is the node i itself (non-frame case; the frame case gives hp' ∈ [])
            have hpi : p = i := by
              cases hfr : isFrameObj o
              · rw [hfr] at hp'; simpa using hp'
              · rw [hfr] at hp'; simp at hp'
            subst hpi
            rw [closureChildrenOfId, hlook] at hj
            exact thread_marks (closureV_mono H vn a)
              (fun j vis => closureV_marks H vn ha1 j vis) _ _ _ hj
          · exact hthread _ _ (by omega) p hp' j hj

theorem nodeEdges_src (H : Heap) (vn : Option (List String)) (i : Nat) :
    ∀ e ∈ nodeEdges H vn i, e.1 = i := by
  intro e he
  unfold nodeEdges at he
  cases hlook : lookupObj H i with
  | none => rw [hlook] at he; simp at he
  | some o =>
    rw [hlook] at he
    obtain ⟨pv, _, hm⟩ := List.mem_filterMap.mp he
    match hv : pv.2 with
    | Val.ref j => rw [hv] at hm; simp at hm; rw [← hm]
    | Val.none => rw [hv] at hm; simp at hm
    | Val.atom a => rw [hv] at hm; simp at hm

theorem mem_enum_snd {α : Type} {l : List α} {x : Nat × α} (h : x ∈ l.enum) : x.2 ∈ l := by
  rw [List.mem_enum_iff_getElem?] at h
  obtain ⟨hlt, hget⟩ := List.getElem?_eq_some.mp h
  exact hget ▸ List.getElem_mem _

/-- On a frame-free, dual-free heap, every edge target reported by
`node_edges` is one of the children `closure_` recurses into from the same
node: the two components enumerate the same child values. -/
theorem nodeEdges_target_child (H : Heap) (vn : Option (List String))
    (hf : NoFrames H) (hd : NoDual H) {p : Nat} {e : Nat × String × Nat}
    (he : e ∈ nodeEdges H vn p) : Val.ref e.2.2 ∈ closureChildrenOfId H vn p := by
  unfold nodeEdges at he
  cases hlook : lookupObj H p with
  | none => rw [hlook] at he; simp at he
  | some o =>
    rw [hlook] at he
    obtain ⟨pv, hpv, hm⟩ := List.mem_filterMap.mp he
    match hv : pv.2 with
    | Val.none => rw [hv] at hm; simp at hm
    | Val.atom a => rw [hv] at hm; simp at hm
    | Val.ref j =>
      rw [hv] at hm
      simp only [Option.some.injEq] at hm
      have hj : e.2.2 = j := by rw [← hm]
      subst hj
      rw [closureChildrenOfId, hlook]
      match o, hlook with
      | Obj.frame sc locals back, hlook =>
        have := hf _ (lookupObj_mem hlook)
        simp [isFrameObj] at this
      | Obj.dict entries, hlook =>
        simp only [objEdgePorts] at hpv
        obtain ⟨ikv, hikv, hpveq⟩ := List.mem_map.mp hpv
        have h2 : pv.2 = ikv.2.2 := by rw [← hpveq]
        rw [hv] at h2
        simp only [objClosureChildren]
        exact List.mem_map.mpr ⟨ikv.2, mem_enum_snd hikv, by rw [← h2]⟩
      | Obj.plain c cb (Option.some fs) (Option.some es), hlook =>
        have := hd _ (lookupObj_mem hlook)
        simp [isDualObj] at this
      | Obj.plain c cb (Option.some fs) Option.none, hlook =>
        simp only [objEdgePorts] at hpv
        simp only [objClosureChildren]
        exact List.mem_map.mpr ⟨pv, hpv, by rw [← hv]⟩
      | Obj.plain c cb Option.none (Option.some es), hlook =>
        simp only [objEdgePorts] at hpv
        obtain ⟨ie, hie, hpveq⟩ := List.mem_map.mp hpv
        have h2 : pv.2 = ie.2 := by rw [← hpveq]
        rw [hv] at h2
        simp only [objClosureChildren]
        have h3 : ie.2 = Val.ref e.2.2 := h2.symm
        exact h3 ▸ mem_enum_snd hie
      | Obj.plain c cb Option.none Option.none, hlook =>
        simp only [objEdgePorts] at hpv
        simp at hpv

/-- C2, amended: on a heap with no stack frames stored as data and no
dual-capability objects, both endpoints of every edge produced from the
reachable set are themselves in the reachable set. -/
theorem edgesOf_endpoints_reachable (H : Heap) (vn : Option (List String)) (root : Val)
    (hf : NoFrames H) (hd : NoDual H) :
    ∀ e ∈ edgesOf H vn (closure H vn root),
      e.1 ∈ closure H vn root ∧ e.2.2 ∈ closure H vn root := by
  intro e he
  obtain ⟨p, hp, hep⟩ := List.mem_flatMap.mp he
  have hsrc : e.1 = p := nodeEdges_src H vn p e hep
  refine ⟨hsrc ▸ hp, ?_⟩
  have hchild : Val.ref e.2.2 ∈ closureChildrenOfId H vn p :=
    nodeEdges_target_child H vn hf hd hep
  have hflt : unvis H ∅ < H.length + 1 :=
    lt_of_le_of_lt (unvis_le_length H) (Nat.lt_succ_self _)
  have hvis : e.2.2 ∈ (closureV H vn (H.length + 1) root ∅).2 :=
    closureV_closed H vn (unvis H ∅) (H.length + 1) root ∅ le_rfl hflt p hp e.2.2 hchild
  rcases closureV_visited H vn hf (H.length + 1) root ∅ e.2.2 hvis with h | h
  · simp at h
  · exact h

theorem keys_nodup_val_eq {l : List (String × Val)} (h : (l.map (·.1)).Nodup)
    {k : String} {v v' : Val} (h1 : (k, v) ∈ l) (h2 : (k, v') ∈ l) : v = v' := by
  induction l with
  | nil => simp at h1
  | cons x xs ih =>
    simp only [List.map_cons, List.nodup_cons] at h
    rcases List.mem_cons.mp h1 with e1 | e1 <;> rcases List.mem_cons.mp h2 with e2 | e2
    · exact congrArg Prod.snd (e1.trans e2.symm)
    · exfalso
      exact h.1 (List.mem_map.mpr ⟨(k, v'), e2, by rw [← e1]⟩)
    · exfalso
      exact h.1 (List.mem_map.mpr ⟨(k, v), e1, by rw [← e2]⟩)
    · exact ih h.2 e1 e2

/- ------------------------------------------------------------------ -/
/- The clustering scan as a flat edge fold, and pinning lemmas.        -/
/- ------------------------------------------------------------------ -/

theorem mergeStep_tfmap (st : CSGSt) (p q : Nat) : (mergeStep st p q).tfmap = st.tfmap := by
  unfold mergeStep
  cases hf : st.groups.any (fun g => decide (p ∈ g.1) || decide (q ∈ g.1)) <;> simp [hf]

theorem csgScanFold_append (maxE : String → Nat) (st : CSGSt)
    (l1 l2 : List (String × Nat × String × Nat)) :
    csgScanFold maxE st (l1 ++ l2) = csgScanFold maxE (csgScanFold maxE st l1) l2 :=
  List.foldl_append _ _ _ _

theorem foldl_edgeStep_eq_filterMap (H : Heap) (maxE : String → Nat) (c : String) :
    ∀ (es : List (Nat × String × Nat)) (st : CSGSt),
      es.foldl (csgEdgeStep H maxE c) st =
        csgScanFold maxE st (es.filterMap (fun e =>
          if typeOfId H e.2.2 = Option.some (PyType.classT c) then Option.some (c, e)
          else Option.none)) := by
  intro es
  induction es with
  | nil => intro st; rfl
  | cons e es ih =>
    intro st
    simp only [List.foldl_cons, List.filterMap_cons]
    by_cases h : typeOfId H e.2.2 = Option.some (PyType.classT c)
    · rw [if_pos h]
      have hstep : csgEdgeStep H maxE c st e = csgAccept maxE c st e := by
        unfold csgEdgeStep; rw [if_pos h]
      rw [hstep, ih]
      rfl
    · rw [if_neg h]
      have hstep : csgEdgeStep H maxE c st e = st := by
        unfold csgEdgeStep; rw [if_neg h]
      rw [hstep, ih]

/-- The nested node-and-edge loops of `connected_subgraphs` equal the flat
left fold of `csgAccept` over the tagged same-type edge scan. -/
theorem nodesFold_eq_scanFold (H : Heap) (vn : Option (List String))
    (maxE : String → Nat) :
    ∀ (reach : List Nat) (st : CSGSt),
      reach.foldl (csgNodeStep H vn maxE) st =
        csgScanFold maxE st (scanEdges H vn reach) := by
  intro reach
  induction reach with
  | nil => intro st; rfl
  | cons i rest ih =>
    intro st
    simp only [List.foldl_cons, scanEdges, List.flatMap_cons]
    rw [csgScanFold_append]
    have hnode : csgNodeStep H vn maxE st i =
        csgScanFold maxE st
          (match lookupObj H i with
           | Option.some (Obj.plain c _ (Option.some _) Option.none) =>
             (nodeEdges H vn i).filterMap (fun e =>
               if typeOfId H e.2.2 = Option.some (PyType.classT c) then Option.some (c, e)
               else Option.none)
           | _ => []) := by
      unfold csgNodeStep
      cases hlook : lookupObj H i with
      | none => rfl
      | some o =>
        match o with
        | Obj.frame _ _ _ => rfl
        | Obj.dict _ => rfl
        | Obj.plain c cb (Option.some fs) Option.none =>
          exact foldl_edgeStep_eq_filterMap H maxE c (nodeEdges H vn i) st
        | Obj.plain c cb (Option.some fs) (Option.some es) => rfl
        | Obj.plain c cb Option.none (Option.some es) => rfl
        | Obj.plain c cb Option.none Option.none => rfl
    rw [← hnode]
    have hrest := ih (csgNodeStep H vn maxE st i)
    rw [hrest]
    rw [← scanEdges]

theorem csgAccept_tfmap_other (maxE : String → Nat) {c d : String} (st : CSGSt)
    (e : Nat × String × Nat) (h : c ≠ d) :
    (csgAccept maxE c st e).tfmap d = st.tfmap d := by
  cases hm : (if maxE c = 1 then st.tfmap c else Option.none) with
  | some prev =>
    simp only [csgAccept, hm]
    by_cases hf : e.2.1 ≠ prev
    · rw [if_pos hf]
    · rw [if_neg hf, mergeStep_tfmap]
  | none =>
    simp only [csgAccept, hm, mergeStep_tfmap]
    exact if_neg (fun hdc : d = c => h hdc.symm)

theorem csgAccept_pin_preserve (maxE : String → Nat) {c : String} (st : CSGSt)
    (e : Nat × String × Nat) {f0 : String} (hmax : maxE c = 1)
    (hst : st.tfmap c = Option.some f0) :
    (csgAccept maxE c st e).tfmap c = Option.some f0 := by
  have hm : (if maxE c = 1 then st.tfmap c else Option.none) = Option.some f0 := by
    rw [if_pos hmax]; exact hst
  simp only [csgAccept, hm]
  by_cases hf : e.2.1 ≠ f0
  · rw [if_pos hf]; exact hst
  · rw [if_neg hf, mergeStep_tfmap]; exact hst

theorem csgAccept_pin_set (maxE : String → Nat) {c : String} (st : CSGSt)
    (e : Nat × String × Nat) (hst : st.tfmap c = Option.none) :
    (csgAccept maxE c st e).tfmap c = Option.some e.2.1 := by
  have hm : (if maxE c = 1 then st.tfmap c else Option.none) = Option.none := by
    split <;> simp [hst]
  simp only [csgAccept, hm, mergeStep_tfmap]
  simp

/-- A same-class edge of a chain-candidate class whose field name differs from
the pinned one is a complete no-op of the clustering state (`continue`). -/
theorem csgAccept_excluded (maxE : String → Nat) {c : String} (st : CSGSt)
    (e : Nat × String × Nat) {f0 : String} (hmax : maxE c = 1)
    (hst : st.tfmap c = Option.some f0) (hne : e.2.1 ≠ f0) :
    csgAccept maxE c st e = st := by
  have hm : (if maxE c = 1 then st.tfmap c else Option.none) = Option.some f0 := by
    rw [if_pos hmax]; exact hst
  simp only [csgAccept, hm]
  rw [if_pos hne]

theorem csgScanFold_tfmap_other (maxE : String → Nat) (c : String) :
    ∀ (l : List (String × Nat × String × Nat)) (st : CSGSt),
      (∀ ce ∈ l, ce.1 ≠ c) → (csgScanFold maxE st l).tfmap c = st.tfmap c := by
  intro l
  induction l with
  | nil => intro st _; rfl
  | cons ce l ih =>
    intro st h
    have hstep : csgScanFold maxE st (ce :: l) =
        csgScanFold maxE (csgAccept maxE ce.1 st ce.2) l := rfl
    rw [hstep, ih _ (fun x hx => h x (List.mem_cons_of_mem _ hx))]
    exact csgAccept_tfmap_other maxE _ ce.2 (h ce (List.mem_cons_self _ _))

theorem csgScanFold_pin_preserve (maxE : String → Nat) {c f0 : String}
    (hmax : maxE c = 1) :
    ∀ (l : List (String × Nat × String × Nat)) (st : CSGSt),
      st.tfmap c = Option.some f0 → (csgScanFold maxE st l).tfmap c = Option.some f0 := by
  intro l
  induction l with
  | nil => intro st h; exact h
  | cons ce l ih =>
    intro st h
    have hstep : csgScanFold maxE st (ce :: l) =
        csgScanFold maxE (csgAccept maxE ce.1 st ce.2) l := rfl
    rw [hstep]
    apply ih
    by_cases hc : ce.1 = c
    · subst hc
      exact csgAccept_pin_preserve maxE st ce.2 hmax h
    · rw [csgAccept_tfmap_other maxE st ce.2 hc]
      exact h

/- ------------------------------------------------------------------ -/
/- Claims.                                                             -/
/- ------------------------------------------------------------------ -/

/-- C1 (code bug): `connected_subgraphs` can return overlapping groups.  On
`olHeap` the edge `3.m = 0` touches the two groups `{0, 1, 4}` and `{2, 3}`
already built; the source adds both endpoints to *every* matching group
instead of merging the groups into one, so the two returned ClusterGroups
share the identities 0 and 3 — they are not pairwise disjoint. -/
theorem c1_groups_not_disjoint :
    ¬ ((connectedSubgraphs olHeap Option.none (Val.ref 9)).2.Pairwise
        (fun g1 g2 => ∀ x ∈ g1, x ∉ g2)) := by
  decide

/-- C2 (counterexample): for the dual-capability object 0 of `dualHeap`
(`__dict__` holding 1, `__iter__` yielding 2), `closure` recurses into the
`__dict__` values (reachable = `[0, 1]`) while `node_edges` enumerates the
`__iter__` elements, emitting an edge whose target 2 is *not* in the
reachable set. -/
theorem c2_counterexample :
    (0, "0", 2) ∈ edgesOf dualHeap Option.none (closure dualHeap Option.none (Val.ref 0)) ∧
      2 ∉ closure dualHeap Option.none (Val.ref 0) := by
  decide

/-- C2 (witness): the amended endpoint-closedness theorem applied to the
frame-free, dual-free `chainHeap`. -/
theorem c2_witness :
    NoFrames chainHeap ∧ NoDual chainHeap ∧
      ∀ e ∈ edgesOf chainHeap Option.none (closure chainHeap Option.none (Val.ref 0)),
        e.1 ∈ closure chainHeap Option.none (Val.ref 0) ∧
          e.2.2 ∈ closure chainHeap Option.none (Val.ref 0) :=
  ⟨by decide, by decide,
    edgesOf_endpoints_reachable chainHeap Option.none (Val.ref 0) (by decide) (by decide)⟩

/-- C3 (counterexample): on `fanHeap` node 0 has three same-class outgoing
edges; `max_edges_in_connected_subgraphs` duly reports 3, yet
`connected_subgraphs` *does* return a ClusterGroup containing node 0 — the
source has no `>= 3` exclusion in its clustering pass. -/
theorem c3_counterexample :
    (connectedSubgraphs fanHeap Option.none (Val.ref 0)).1 "T" = 3 ∧
      ∃ g ∈ (connectedSubgraphs fanHeap Option.none (Val.ref 0)).2, 0 ∈ g := by
  decide

/-- C3 (amended): the topology map reports the true maximum same-class
out-degree (3 on `fanHeap`), but `connected_subgraphs` applies no
topology-based exclusion: field-name pinning is the only `max == 1`-specific
behaviour, and a class of topology ≥ 3 is still clustered — here into the
single group `{0, 1, 2, 3}`. -/
theorem c3_amended :
    (connectedSubgraphs fanHeap Option.none (Val.ref 0)).1 "T" = 3 ∧
      ((connectedSubgraphs fanHeap Option.none (Val.ref 0)).2).map List.toFinset
        = [{0, 1, 2, 3}] := by
  decide

/-- C4 (counterexample): object 0 of `dualHeap` both iterates (yielding 2) and
has named fields (holding 1).  `closure` traverses it as a Record — the
reachable set is `[0, 1]`, not containing the element 2 — while `node_edges`
treats it as a Sequence, emitting exactly the edge to 2.  Hence it is *not*
treated as a Sequence by every component. -/
theorem c4_counterexample :
    closure dualHeap Option.none (Val.ref 0) = [0, 1] ∧
      2 ∉ closure dualHeap Option.none (Val.ref 0) ∧
      nodeEdges dualHeap Option.none 0 = [(0, "0", 2)] := by
  decide

/-- C4 (amended): the two components classify dual-capability objects
*differently*: for an unvisited object with both `__dict__` and `__iter__`,
`closure_` recurses into the `__dict__` field values (Record-first order
Scope > Scalar > Mapping > Record > Sequence), while `node_edges` enumerates
the `__iter__` elements (Sequence-first order
Scope > Scalar > Mapping > Sequence > Record). -/
theorem c4_amended (H : Heap) (vn : Option (List String)) (f i : Nat)
    (vis : Finset Nat) (c : String) (cb : Bool) (fs : List (String × Val))
    (es : List Val)
    (hlook : lookupObj H i = Option.some (Obj.plain c cb (Option.some fs) (Option.some es)))
    (hvis : i ∉ vis) :
    closureV H vn (f + 1) (Val.ref i) vis =
      (i :: (thread (closureV H vn f) (fs.map (·.2)) (insert i vis)).1,
        (thread (closureV H vn f) (fs.map (·.2)) (insert i vis)).2) ∧
    nodeEdges H vn i =
      (es.enum.map (fun ie => (toString ie.1, ie.2))).filterMap (fun pv =>
        match pv.2 with
        | Val.ref j => Option.some (i, pv.1, j)
        | _ => Option.none) := by
  constructor
  · simp [closureV, hvis, hlook, objClosureChildren, isFrameObj]
  · simp [nodeEdges, hlook, objEdgePorts]

/-- C4 (witness): the amended classification statement at the concrete
`dualHeap`. -/
theorem c4_witness :
    lookupObj dualHeap 0 =
        Option.some (Obj.plain "W" false
          (Option.some [("f", Val.ref 1)]) (Option.some [Val.ref 2])) ∧
      (0 : Nat) ∉ (∅ : Finset Nat) ∧
      (closureV dualHeap Option.none 4 (Val.ref 0) ∅ =
        (0 :: (thread (closureV dualHeap Option.none 3)
            ([("f", Val.ref 1)].map (·.2)) (insert 0 ∅)).1,
          (thread (closureV dualHeap Option.none 3)
            ([("f", Val.ref 1)].map (·.2)) (insert 0 ∅)).2) ∧
      nodeEdges dualHeap Option.none 0 =
        (([Val.ref 2]).enum.map (fun ie => (toString ie.1, ie.2))).filterMap (fun pv =>
          match pv.2 with
          | Val.ref j => Option.some (0, pv.1, j)
          | _ => Option.none)) :=
  ⟨by decide, by decide,
    c4_amended dualHeap Option.none 3 0 ∅ "W" false [("f", Val.ref 1)] [Val.ref 2]
      (by decide) (by decide)⟩

/-- C5 (counterexample): a Python boolean is *not* an `isatom` value
(`type(True)` is `bool`, not `int`/`float`/`str`), so a boolean-valued field
is not absorbed: on `boolHeap` the field `flag = True` produces a real edge
and the boolean becomes a traversed node. -/
theorem c5_counterexample :
    nodeEdges boolHeap Option.none 0 = [(0, "flag", 1)] ∧
      closure boolHeap Option.none (Val.ref 0) = [0, 1] := by
  decide

/-- C5 (amended): `None` and `isatom` scalar children (`int`/`float`/`str` —
*not* booleans) are absorbed in every branch of the extractor and the walker:

1. a record field holding such a value emits no edge on that field's port;
2. a frame binding holding such a value emits no edge on that binding's port;
3. a dict's edges are exactly one edge per reference-valued entry, with port
   `str(position counted over all entries)` — `None`/scalar entries
   contribute nothing;
4. likewise for an iterable's elements;
5. a mapping all of whose values are `None`/scalars emits no edge at all;
6. `closure_` produces no node and does not recurse for `None`/atom values. -/
theorem c5_amended :
    (∀ (H : Heap) (vn : Option (List String)) (i : Nat) (c : String) (cb : Bool)
        (fs : List (String × Val)),
      lookupObj H i = Option.some (Obj.plain c cb (Option.some fs) Option.none) →
      (fs.map (·.1)).Nodup →
      ∀ k v, (k, v) ∈ fs → absorbed v →
        ∀ j : Nat, (i, k, j) ∉ nodeEdges H vn i) ∧
    (∀ (H : Heap) (vn : Option (List String)) (i : Nat) (sc : String)
        (locals : List (String × Val)) (back : Val),
      lookupObj H i = Option.some (Obj.frame sc locals back) →
      (locals.map (·.1)).Nodup →
      ∀ k v, (k, v) ∈ locals → absorbed v →
        ∀ j : Nat, (i, k, j) ∉ nodeEdges H vn i) ∧
    (∀ (H : Heap) (vn : Option (List String)) (i : Nat)
        (entries : List (String × Val)),
      lookupObj H i = Option.some (Obj.dict entries) →
      nodeEdges H vn i = entries.enum.filterMap (fun ikv =>
        match ikv.2.2 with
        | Val.ref q => Option.some (i, toString ikv.1, q)
        | _ => Option.none)) ∧
    (∀ (H : Heap) (vn : Option (List String)) (i : Nat) (c : String) (cb : Bool)
        (df : Option (List (String × Val))) (es : List Val),
      lookupObj H i = Option.some (Obj.plain c cb df (Option.some es)) →
      nodeEdges H vn i = es.enum.filterMap (fun ie =>
        match ie.2 with
        | Val.ref q => Option.some (i, toString ie.1, q)
        | _ => Option.none)) ∧
    (∀ (H : Heap) (vn : Option (List String)) (i : Nat)
        (entries : List (String × Val)),
      lookupObj H i = Option.some (Obj.dict entries) →
      (∀ kv ∈ entries, absorbed kv.2) → nodeEdges H vn i = []) ∧
    (∀ (H : Heap) (vn : Option (List String)) (f : Nat) (a : Atom) (vis : Finset Nat),
      closureV H vn f (Val.atom a) vis = ([], vis) ∧
        closureV H vn f Val.none vis = ([], vis)) := by
  have habs : ∀ v : Val, absorbed v → ∀ q : Nat, v ≠ Val.ref q := by
    intro v hv q heq
    rcases hv with hv | hv
    · rw [hv] at heq; exact Val.noConfusion heq
    · rw [heq] at hv; simp [isatom] at hv
  have hdict : ∀ (H : Heap) (vn : Option (List String)) (i : Nat)
      (entries : List (String × Val)),
      lookupObj H i = Option.some (Obj.dict entries) →
      nodeEdges H vn i = entries.enum.filterMap (fun ikv =>
        match ikv.2.2 with
        | Val.ref q => Option.some (i, toString ikv.1, q)
        | _ => Option.none) := by
    intro H vn i entries hlook
    unfold nodeEdges
    rw [hlook]
    simp only [objEdgePorts, List.filterMap_map]
    apply List.filterMap_congr
    intro ikv _
    obtain ⟨n, k, v⟩ := ikv
    cases v <;> rfl
  refine ⟨?_, ?_, hdict, ?_, ?_, ?_⟩
  · intro H vn i c cb fs hlook hnd k v hmem hav j hedge
    unfold nodeEdges at hedge
    rw [hlook] at hedge
    obtain ⟨pv, hpv, hm⟩ := List.mem_filterMap.mp hedge
    simp only [objEdgePorts] at hpv
    match hv : pv.2 with
    | Val.none => rw [hv] at hm; simp at hm
    | Val.atom a => rw [hv] at hm; simp at hm
    | Val.ref j' =>
      rw [hv] at hm
      simp only [Option.some.injEq, Prod.mk.injEq] at hm
      obtain ⟨-, hk, hj⟩ := hm
      have hpvfull : pv = (k, Val.ref j') := by
        rw [← hk, ← hv]
      rw [hpvfull] at hpv
      exact habs v hav j' (keys_nodup_val_eq hnd hmem hpv)
  · intro H vn i sc locals back hlook hnd k v hmem hav j hedge
    unfold nodeEdges at hedge
    rw [hlook] at hedge
    obtain ⟨pv, hpv, hm⟩ := List.mem_filterMap.mp hedge
    simp only [objEdgePorts] at hpv
    match hv : pv.2 with
    | Val.none => rw [hv] at hm; simp at hm
    | Val.atom a => rw [hv] at hm; simp at hm
    | Val.ref j' =>
      rw [hv] at hm
      simp only [Option.some.injEq, Prod.mk.injEq] at hm
      obtain ⟨-, hk, hj⟩ := hm
      have hpvfull : pv = (k, Val.ref j') := by
        rw [← hk, ← hv]
      rw [hpvfull] at hpv
      exact habs v hav j' (keys_nodup_val_eq hnd hmem (List.mem_of_mem_filter hpv))
  · intro H vn i c cb df es hlook
    unfold nodeEdges
    rw [hlook]
    simp only [objEdgePorts, List.filterMap_map]
    apply List.filterMap_congr
    intro ie _
    obtain ⟨n, v⟩ := ie
    cases v <;> rfl
  · intro H vn i entries hlook hall
    rw [hdict H vn i entries hlook]
    apply List.filterMap_eq_nil_iff.mpr
    intro ikv hikv
    have hv : absorbed ikv.2.2 := hall ikv.2 (mem_enum_snd hikv)
    match hr : ikv.2.2 with
    | Val.ref q => exact absurd hr (habs _ hv q)
    | Val.none => rfl
    | Val.atom a => rfl
  · intro H vn f a vis
    cases f with
    | zero => exact ⟨rfl, rfl⟩
    | succ f => exact ⟨rfl, rfl⟩

/-- C5 (witness): the absorption statement at the concrete `c5Heap`
(atom-valued record field `x`, checked against target 1) and at the concrete
mapping `{"a": 1, "b": 2}` (`mapAbsHeap`), which emits zero edges while its
payload keeps both rows. -/
theorem c5_witness :
    (lookupObj c5Heap 0 =
        Option.some (Obj.plain "R" false
          (Option.some [("x", Val.atom (Atom.intV 5)), ("n", Val.ref 1)]) Option.none) ∧
      ([("x", Val.atom (Atom.intV 5)), ("n", Val.ref 1)].map (·.1)).Nodup ∧
      ("x", Val.atom (Atom.intV 5)) ∈ [("x", Val.atom (Atom.intV 5)), ("n", Val.ref 1)] ∧
      absorbed (Val.atom (Atom.intV 5)) ∧
      (0, "x", 1) ∉ nodeEdges c5Heap Option.none 0) ∧
    (lookupObj mapAbsHeap 0 =
        Option.some (Obj.dict [("a", Val.atom (Atom.intV 1)), ("b", Val.atom (Atom.intV 2))]) ∧
      (∀ kv ∈ [("a", Val.atom (Atom.intV 1)), ("b", Val.atom (Atom.intV 2))],
        absorbed kv.2) ∧
      nodeEdges mapAbsHeap Option.none 0 = [] ∧
      (objNodeDictItems Option.none
        [("a", Val.atom (Atom.intV 1)), ("b", Val.atom (Atom.intV 2))] 0).length = 2) :=
  ⟨⟨by decide, by decide, by decide, by decide,
    c5_amended.1 c5Heap Option.none 0 "R" false
      [("x", Val.atom (Atom.intV 5)), ("n", Val.ref 1)] (by decide) (by decide)
      "x" (Val.atom (Atom.intV 5)) (by decide) (by decide) 1⟩,
   ⟨by decide, by decide,
    c5_amended.2.2.2.2.1 mapAbsHeap Option.none 0
      [("a", Val.atom (Atom.intV 1)), ("b", Val.atom (Atom.intV 2))]
      (by decide) (by decide),
    by decide⟩⟩

/-- C6: cycle safety and termination of the walker.  For the self-referential
record `a.next = a`, `closure` returns exactly the one node `a`; in general
the visited set bounds the recursion — once the depth budget strictly exceeds
the number of unvisited heap identities, its exact value no longer affects
the result of `closure_`. -/
theorem c6_cycle_safe :
    closure selfHeap Option.none (Val.ref 0) = [0] ∧
      ∀ (H : Heap) (vn : Option (List String)) (v : Val) (vis : Finset Nat)
        (f1 f2 : Nat), unvis H vis < f1 → unvis H vis < f2 →
          closureV H vn f1 v vis = closureV H vn f2 v vis := by
  refine ⟨by decide, ?_⟩
  intro H vn v vis f1 f2 h1 h2
  exact closureV_stable H vn (unvis H vis) f1 f2 v vis le_rfl h1 h2

/-- C6 (witness): the fuel-stability statement at the concrete `selfHeap`. -/
theorem c6_witness :
    unvis selfHeap ∅ < 5 ∧ unvis selfHeap ∅ < 2 ∧
      closureV selfHeap Option.none 5 (Val.ref 0) ∅ =
        closureV selfHeap Option.none 2 (Val.ref 0) ∅ :=
  ⟨by decide, by decide,
    c6_cycle_safe.2 selfHeap Option.none (Val.ref 0) ∅ 5 2 (by decide) (by decide)⟩

/-- C7: the node list returned by `closure` never contains a duplicate
identity, for any heap, filter and root; in particular on
`b = {x: a, y: a}` (`dupHeap`) the shared object 1 appears exactly once. -/
theorem c7_closure_nodup :
    (∀ (H : Heap) (vn : Option (List String)) (root : Val), (closure H vn root).Nodup) ∧
      (closure dupHeap Option.none (Val.ref 0)).count 1 = 1 := by
  refine ⟨?_, by decide⟩
  intro H vn root
  exact ((closureV_ok H vn (H.length + 1)) root ∅).2.1

/-- C8: the four-node chain `0 → 1 → 2 → 3` over field `next` of the single
class `N` yields `ClassTopology["N"] == 1` and exactly one ClusterGroup with
membership `{0, 1, 2, 3}`. -/
theorem c8_chain_cluster :
    (connectedSubgraphs chainHeap Option.none (Val.ref 0)).1 "N" = 1 ∧
      ((connectedSubgraphs chainHeap Option.none (Val.ref 0)).2).map List.toFinset
        = [{0, 1, 2, 3}] := by
  decide

/-- C9: field-name pinning for chain candidates.  Suppose class `c` has
`ClassTopology[c] == 1` and the first same-class edge of class `c`
encountered in the clustering re-scan is `e` (after a prefix `pre` free of
class-`c` edges).  Then (i) the nested node/edge loops of
`connected_subgraphs` equal the flat fold of accepted scan edges; (ii) at
every later point of the scan the pinned field name for `c` is still `e`'s
field name; and (iii) at any such point, processing a class-`c` edge whose
field name differs from the pinned one leaves the entire clustering state
unchanged — it is excluded from cluster merging. -/
theorem c9_field_pinning (H : Heap) (vn : Option (List String)) (root : Val)
    (c : String) (e : String × Nat × String × Nat)
    (pre mid suf : List (String × Nat × String × Nat))
    (hmax : maxEdgesInConnectedSubgraphs H vn root c = 1)
    (hscan : scanEdges H vn (closure H vn root) = pre ++ e :: (mid ++ suf))
    (hec : e.1 = c)
    (hpre : ∀ e' ∈ pre, e'.1 ≠ c) :
    ((closure H vn root).foldl
        (csgNodeStep H vn (maxEdgesInConnectedSubgraphs H vn root)) csgInit =
      csgScanFold (maxEdgesInConnectedSubgraphs H vn root) csgInit
        (scanEdges H vn (closure H vn root))) ∧
    (csgScanFold (maxEdgesInConnectedSubgraphs H vn root) csgInit
        (pre ++ e :: mid)).tfmap c = Option.some e.2.2.1 ∧
    ∀ e2 : String × Nat × String × Nat, e2.1 = c → e2.2.2.1 ≠ e.2.2.1 →
      csgAccept (maxEdgesInConnectedSubgraphs H vn root) e2.1
          (csgScanFold (maxEdgesInConnectedSubgraphs H vn root) csgInit (pre ++ e :: mid))
          e2.2
        = csgScanFold (maxEdgesInConnectedSubgraphs H vn root) csgInit (pre ++ e :: mid) := by
  set maxE := maxEdgesInConnectedSubgraphs H vn root with hmaxE
  have hpin : (csgScanFold maxE csgInit (pre ++ e :: mid)).tfmap c = Option.some e.2.2.1 := by
    rw [csgScanFold_append]
    have hpre' : (csgScanFold maxE csgInit pre).tfmap c = Option.none :=
      csgScanFold_tfmap_other maxE c pre csgInit hpre
    have hstep : csgScanFold maxE (csgScanFold maxE csgInit pre) (e :: mid) =
        csgScanFold maxE
          (csgAccept maxE e.1 (csgScanFold maxE csgInit pre) e.2) mid := rfl
    rw [hstep]
    apply csgScanFold_pin_preserve maxE hmax
    rw [hec]
    exact csgAccept_pin_set maxE _ e.2 hpre'
  refine ⟨nodesFold_eq_scanFold H vn maxE _ _, hpin, ?_⟩
  intro e2 he2c he2f
  rw [he2c]
  exact csgAccept_excluded maxE _ e2.2 hmax hpin he2f

/-- C9 (witness): on `pinHeap` (`0.next = 1`, `1.prev = 0`, class `N`,
topology 1) the scan is `[("N", 0, "next", 1), ("N", 1, "prev", 0)]`; the
theorem pins `next` right after the first edge and makes the subsequent
`prev` edge a no-op. -/
theorem c9_witness :
    maxEdgesInConnectedSubgraphs pinHeap Option.none (Val.ref 0) "N" = 1 ∧
      scanEdges pinHeap Option.none (closure pinHeap Option.none (Val.ref 0))
        = [] ++ ("N", 0, "next", 1) :: ([] ++ [("N", 1, "prev", 0)]) ∧
      (csgScanFold (maxEdgesInConnectedSubgraphs pinHeap Option.none (Val.ref 0)) csgInit
          ([] ++ ("N", 0, "next", 1) :: [])).tfmap "N" = Option.some "next" ∧
      csgAccept (maxEdgesInConnectedSubgraphs pinHeap Option.none (Val.ref 0)) "N"
          (csgScanFold (maxEdgesInConnectedSubgraphs pinHeap Option.none (Val.ref 0))
            csgInit ([] ++ ("N", 0, "next", 1) :: [])) (1, "prev", 0)
        = csgScanFold (maxEdgesInConnectedSubgraphs pinHeap Option.none (Val.ref 0))
            csgInit ([] ++ ("N", 0, "next", 1) :: []) := by
  have h := c9_field_pinning pinHeap Option.none (Val.ref 0) "N" ("N", 0, "next", 1)
    [] [] [("N", 1, "prev", 0)] (by decide) (by decide) (by decide) (by decide)
  exact ⟨by decide, by decide, h.2.1, h.2.2 ("N", 1, "prev", 0) (by decide) (by decide)⟩

/-- Row `j` of the dict payload built by `obj_node` with no name filter:
entry `j` with port label `str(j)` (offset by the starting counter). -/
theorem objNodeDictItems_none_get :
    ∀ (entries : List (String × Val)) (m j : Nat),
      (objNodeDictItems Option.none entries m)[j]? =
        (entries[j]?).map (fun kv => (toString (m + j), kv.1,
          match kv.2 with
          | Val.atom a => Option.some a
          | _ => Option.none)) := by
  intro entries
  induction entries with
  | nil => intro m j; simp [objNodeDictItems]
  | cons kv rest ih =>
    intro m j
    obtain ⟨k, v⟩ := kv
    cases j with
    | zero => simp [objNodeDictItems, vnPass]
    | succ j =>
      simp only [objNodeDictItems, vnPass, if_pos]
      rw [List.getElem?_cons_succ, List.getElem?_cons_succ, ih (m + 1) j]
      have : m + 1 + j = m + (j + 1) := by omega
      rw [this]

/-- C10 (counterexample): with a name filter, the dict branch of `obj_node`
renumbers only the retained entries while `node_edges` numbers *all* entries:
on `dHeap` with filter `{"b"}` the edge to entry `b` carries port `"1"`, but
`b`'s payload row is row 0 with port label `"0"` — the port does not match the
entry's row position in the payload (port `"1"` labels no payload row at
all). -/
theorem c10_counterexample :
    nodeEdges dHeap (Option.some ["b"]) 5 = [(5, "0", 6), (5, "1", 7)] ∧
      objNodeDictItems (Option.some ["b"]) [("a", Val.ref 6), ("b", Val.ref 7)] 0
        = [("0", "b", Option.none)] ∧
      "1" ∉ (objNodeDictItems (Option.some ["b"])
        [("a", Val.ref 6), ("b", Val.ref 7)] 0).map (·.1) := by
  decide

/-- C10 (amended): `node_edges` labels the edge for the `j`-th dict entry with
`str(j)`, counting *all* entries including scalar-valued ones; and with no
name filter the payload row `j` built by `obj_node` carries the same label
`str(j)` and that entry's key, so each edge port matches its entry's row
position in the payload. -/
theorem c10_dict_ports (H : Heap) (vn : Option (List String)) (i : Nat)
    (entries : List (String × Val)) (j q : Nat) (k : String)
    (hlook : lookupObj H i = Option.some (Obj.dict entries))
    (hget : entries[j]? = Option.some (k, Val.ref q)) :
    (i, toString j, q) ∈ nodeEdges H vn i ∧
      (objNodeDictItems Option.none entries 0)[j]?
        = Option.some (toString j, k, Option.none) := by
  constructor
  · unfold nodeEdges
    rw [hlook]
    simp only [objEdgePorts]
    apply List.mem_filterMap.mpr
    refine ⟨(toString j, Val.ref q), ?_, rfl⟩
    apply List.mem_map.mpr
    refine ⟨(j, (k, Val.ref q)), ?_, rfl⟩
    exact List.mem_enum_iff_getElem?.mpr hget
  · rw [objNodeDictItems_none_get entries 0 j, hget]
    simp

/-- C10 (witness): the port/payload agreement at the concrete `dAtomHeap`,
whose entry 0 is scalar-valued and entry 1 holds a reference — the edge for
entry 1 carries port `"1"`, matching payload row 1. -/
theorem c10_witness :
    lookupObj dAtomHeap 5
        = Option.some (Obj.dict [("a", Val.atom (Atom.intV 1)), ("b", Val.ref 7)]) ∧
      ([("a", Val.atom (Atom.intV 1)), ("b", Val.ref 7)] :
          List (String × Val))[1]? = Option.some ("b", Val.ref 7) ∧
      (5, toString 1, 7) ∈ nodeEdges dAtomHeap Option.none 5 ∧
      (objNodeDictItems Option.none [("a", Val.atom (Atom.intV 1)), ("b", Val.ref 7)] 0)[1]?
        = Option.some (toString 1, "b", Option.none) := by
  have h := c10_dict_ports dAtomHeap Option.none 5
    [("a", Val.atom (Atom.intV 1)), ("b", Val.ref 7)] 1 7 "b" (by decide) (by decide)
  exact ⟨by decide, by decide, h.1, h.2⟩

end Lolviz
